import Mathlib

/-!
Shallow embedding of the `elliptic-curve` repository (finite-field arithmetic,
elliptic-curve group law, ECDSA sign/verify) and verification of its
specification claims.

Arbitrary-precision `BigUint` values are modelled as `Nat`.  A Rust `panic!`
(explicit in `FiniteField::div`, implicit `BigUint` underflow in
`FiniteField::sub` and in `div`'s `p - 2`) is modelled by returning `none`,
so every operation that can panic is `Option`-valued.  SHA-256 is an external
collaborator; the digest of a message is modelled as an arbitrary natural
number `digest`, and `hash_message` reduces it modulo the group order exactly
as the source does.
-/

namespace ECC

/-- Model of `Point` from src/lib.rs: affine coordinate pair or the point at infinity. -/
inductive Point where
  | Coordinate (x y : Nat)
  | Identity
deriving DecidableEq

/-- Model of `FiniteField` from src/lib.rs: modular arithmetic with modulus `p`. -/
structure FiniteField where
  p : Nat
deriving DecidableEq

namespace FiniteField

/-- Model of `FiniteField::add`: `(x + y) % p`. -/
def add (f : FiniteField) (x y : Nat) : Nat :=
  (x + y) % f.p

/-- Model of `FiniteField::sub`: `x + ((p - y) % p) mod p`.  The Rust `BigUint`
subtraction `&self.p - y` panics when `y > p`, modelled as `none`. -/
def sub (f : FiniteField) (x y : Nat) : Option Nat :=
  if y ≤ f.p then some (f.add x ((f.p - y) % f.p)) else none

/-- Model of `FiniteField::mul`: `(x * y) % p`. -/
def mul (f : FiniteField) (x y : Nat) : Nat :=
  (x * y) % f.p

/-- Model of `FiniteField::div`: panics (`none`) when the divisor is literally `0`;
the Rust `&self.p - 2` also panics when `p < 2`.  Otherwise returns
`x * (y.modpow (p - 2) p) % p` by Fermat's little theorem. -/
def div (f : FiniteField) (x y : Nat) : Option Nat :=
  if y = 0 then none
  else if f.p < 2 then none
  else some (f.mul x (y ^ (f.p - 2) % f.p))

end FiniteField

/-- Model of `EllipticCurve` from src/lib.rs: `y^2 = x^3 + a*x + b (mod p)`. -/
structure EllipticCurve where
  a : Nat
  b : Nat
  p : Nat
deriving DecidableEq

namespace EllipticCurve

/-- The `FiniteField { p: self.p }` instance each curve method constructs. -/
def field (c : EllipticCurve) : FiniteField :=
  ⟨c.p⟩

/-- Model of `EllipticCurve::is_on_curve`. -/
def is_on_curve (c : EllipticCurve) (point : Point) : Bool :=
  match point with
  | .Identity => true
  | .Coordinate x y =>
    let f := c.field
    let y_squared := f.mul y y
    let x_squared := f.mul x x
    let x_cubed := f.mul x_squared x
    let ax := f.mul c.a x
    let right_side := f.add (f.add x_cubed ax) c.b
    y_squared == right_side

/-- Model of `EllipticCurve::double`. -/
def double (c : EllipticCurve) (point : Point) : Option Point :=
  match point with
  | .Identity => some .Identity
  | .Coordinate x y =>
    let f := c.field
    if y = 0 then some .Identity
    else do
      let x_squared := f.mul x x
      let three_x_squared := f.mul 3 x_squared
      let numerator := f.add three_x_squared c.a
      let denominator := f.mul 2 y
      let slope ← f.div numerator denominator
      let slope_squared := f.mul slope slope
      let two_x := f.mul 2 x
      let x3 ← f.sub slope_squared two_x
      let dx_x3 ← f.sub x x3
      let y3 ← f.sub (f.mul slope dx_x3) y
      some (.Coordinate x3 y3)

/-- Model of `EllipticCurve::add`. -/
def add (c : EllipticCurve) (p q : Point) : Option Point :=
  match p, q with
  | .Identity, _ => some q
  | _, .Identity => some p
  | .Coordinate x1 y1, .Coordinate x2 y2 =>
    let f := c.field
    if x1 = x2 then
      if y1 = y2 then c.double (.Coordinate x1 y1)
      else some .Identity
    else do
      let dy ← f.sub y2 y1
      let dx ← f.sub x2 x1
      let slope ← f.div dy dx
      let slope_squared := f.mul slope slope
      let t ← f.sub slope_squared x1
      let x3 ← f.sub t x2
      let dx1_x3 ← f.sub x1 x3
      let y3 ← f.sub (f.mul slope dx1_x3) y1
      some (.Coordinate x3 y3)

/-- The `while scalar > 0` double-and-add loop body of
`EllipticCurve::scalar_mult`: test the low bit (adding `addend` into
`result`), double `addend`, halve `scalar`. -/
def scalarLoop (c : EllipticCurve) (result addend : Point) (scalar : Nat) : Option Point :=
  if h : scalar = 0 then some result
  else
    match (if scalar % 2 = 1 then c.add result addend else some result) with
    | none => none
    | some result' =>
      match c.double addend with
      | none => none
      | some addend' => scalarLoop c result' addend' (scalar / 2)
termination_by scalar
decreasing_by
  exact Nat.div_lt_self (Nat.pos_of_ne_zero h) Nat.one_lt_two

/-- Model of `EllipticCurve::scalar_mult`: fast paths for `k = 0` and `k = 1`, then
the double-and-add loop starting from `result = Identity`, `addend = point`. -/
def scalar_mult (c : EllipticCurve) (point : Point) (k : Nat) : Option Point :=
  if k = 0 then some .Identity
  else if k = 1 then some point
  else scalarLoop c .Identity point k

end EllipticCurve

/-- Model of the `ECDSA` context from src/ecdsa.rs. -/
structure ECDSA where
  curve : EllipticCurve
  generator : Point
  order : Nat

namespace ECDSA

/-- Model of `ECDSA::hash_message`: the SHA-256 digest (modelled as an arbitrary
`digest : Nat` determined by the message) reduced modulo the order. -/
def hash_message (E : ECDSA) (digest : Nat) : Nat :=
  digest % E.order

/-- Model of `ECDSA::generate_public_key`: `Q = d * G`. -/
def generate_public_key (E : ECDSA) (private_key : Nat) : Option Point :=
  E.curve.scalar_mult E.generator private_key

/-- Outcome of one iteration of the `loop` in `ECDSA::sign`. -/
inductive SignOutcome where
  | panic
  | retry
  | success (r s : Nat)
deriving DecidableEq

/-- One iteration of the rejection-sampling `loop` in `ECDSA::sign`, for the
nonce `k` drawn at that iteration: `retry` on `R = Identity`, `r = 0` or
`s = 0`, `panic` if a curve or field operation panics, else the signature. -/
def signAttempt (E : ECDSA) (z d k : Nat) : SignOutcome :=
  let f : FiniteField := ⟨E.order⟩
  match E.curve.scalar_mult E.generator k with
  | none => .panic
  | some .Identity => .retry
  | some (.Coordinate x _) =>
    let r := x % E.order
    if r = 0 then .retry
    else
      let r_d := f.mul r d
      let z_r_d := f.add z r_d
      match f.div 1 k with
      | none => .panic
      | some k_inv =>
        let s := f.mul k_inv z_r_d
        if s = 0 then .retry else .success r s

/-- The unbounded `loop` of `ECDSA::sign`, run for `fuel` iterations against
the nonce stream `ks` (the random source), starting at draw `i`:
`none` means the loop has not produced an outcome after `fuel` iterations.
The Rust loop terminates on the stream `ks` iff some `fuel` yields `some`. -/
def signLoop (E : ECDSA) (z d : Nat) (ks : Nat → Nat) : Nat → Nat → Option SignOutcome
  | _, 0 => none
  | i, fuel + 1 =>
    match E.signAttempt z d (ks i) with
    | .retry => signLoop E z d ks (i + 1) fuel
    | out => some out

/-- The tail of `ECDSA::verify` after `w = s⁻¹ mod n` has been computed:
`u1 = z*w`, `u2 = r*w`, `P = u1*G + u2*Q`, then compare `x_P mod n` with
`r` (`false` on the identity). -/
def verifyWith (E : ECDSA) (z r s : Nat) (public_key : Point) (w : Nat) : Option Bool :=
  let f : FiniteField := ⟨E.order⟩
  let u1 := f.mul z w
  let u2 := f.mul r w
  match E.curve.scalar_mult E.generator u1, E.curve.scalar_mult public_key u2 with
  | some u1_g, some u2_q =>
    match E.curve.add u1_g u2_q with
    | some (.Coordinate x _) => some (decide (x % E.order = r))
    | some .Identity => some false
    | none => none
  | _, _ => none

/-- Model of `ECDSA::verify`: range-check `r` and `s` (returning `false`, no panic),
hash the message, divide by `s`, then `verifyWith`. -/
def verify (E : ECDSA) (digest r s : Nat) (public_key : Point) : Option Bool :=
  if r = 0 ∨ E.order ≤ r ∨ s = 0 ∨ E.order ≤ s then some false
  else
    let z := E.hash_message digest
    match (FiniteField.mk E.order).div 1 s with
    | none => none
    | some w => E.verifyWith z r s public_key w

end ECDSA

/-- A `Point` whose coordinates are reduced mod `p`, as the data model
requires of `Coordinate` points. -/
def reducedPt (c : EllipticCurve) : Point → Bool
  | .Identity => true
  | .Coordinate x y => decide (x < c.p) && decide (y < c.p)

/-- The demonstration / test ECDSA context: curve `y² = x³ + 2x + 2 (mod 17)`,
generator `(5, 1)`, order `19`. -/
def demoECDSA : ECDSA :=
  { curve := ⟨2, 2, 17⟩, generator := .Coordinate 5 1, order := 19 }



/-- The short Weierstrass curve over `ZMod p` corresponding to an embedded
`EllipticCurve` (`a₁ = a₂ = a₃ = 0`, `a₄ = a`, `a₆ = b`). -/
def toW (c : EllipticCurve) : WeierstrassCurve.Affine (ZMod c.p) :=
  { a₁ := 0, a₂ := 0, a₃ := 0, a₄ := (c.a : ZMod c.p), a₆ := (c.b : ZMod c.p) }

/-- Correspondence between an embedded `Point` (with reduced coordinates)
and a nonsingular point of the associated Mathlib Weierstrass curve. -/
inductive PtCorr (c : EllipticCurve) : Point → (toW c).Point → Prop where
  | identity : PtCorr c .Identity 0
  | coord (x y : Nat) (hx : x < c.p) (hy : y < c.p)
      (h : (toW c).Nonsingular (x : ZMod c.p) (y : ZMod c.p)) :
      PtCorr c (.Coordinate x y) (.some h)

/-! ## Helper lemmas -/

/-- The law `add(Identity, P) = P` (first match arm of the source). -/
theorem add_id_left (c : EllipticCurve) (P : Point) : c.add .Identity P = some P := by
  cases P <;> rfl

/-- The law `add(P, Identity) = P` (second match arm of the source). -/
theorem add_id_right (c : EllipticCurve) (P : Point) : c.add P .Identity = some P := by
  cases P <;> rfl

/-- The double-and-add loop started on two identities stays at the identity. -/
theorem scalarLoop_identity (c : EllipticCurve) :
    ∀ n : Nat, c.scalarLoop .Identity .Identity n = some .Identity := by
  intro n
  induction n using Nat.strong_induction_on with
  | _ n ih =>
    rw [EllipticCurve.scalarLoop]
    split
    next => rfl
    next h =>
      have hadd : (if n % 2 = 1 then c.add .Identity .Identity else some .Identity)
          = some .Identity := by
        split <;> rfl
      rw [hadd]
      show c.scalarLoop .Identity .Identity (n / 2) = some .Identity
      exact ih (n / 2) (Nat.div_lt_self (Nat.pos_of_ne_zero h) Nat.one_lt_two)

/-- On the demo curve, `7 * G = (0, 6)`, whose `x`-coordinate is `0`. -/
theorem demo_scalar_mult_seven :
    demoECDSA.curve.scalar_mult demoECDSA.generator 7 = some (.Coordinate 0 6) := by
  simp [demoECDSA, EllipticCurve.scalar_mult, EllipticCurve.scalarLoop, EllipticCurve.add,
    EllipticCurve.double, FiniteField.add, FiniteField.sub, FiniteField.mul, FiniteField.div,
    EllipticCurve.field]

/-- Drawing the nonce `7` on the demo curve always makes the signing loop
resample: `r = 0 mod 19`. -/
theorem demo_signAttempt_seven (z d : Nat) :
    demoECDSA.signAttempt z d 7 = .retry := by
  unfold ECDSA.signAttempt
  rw [demo_scalar_mult_seven]
  rfl

/-! ## Claim theorems -/

/-- C8: identity laws of point addition: `add(Identity, P) = P` and
`add(P, Identity) = P` for every point `P`, on every curve, with no panic. -/
theorem add_identity_laws (c : EllipticCurve) (P : Point) :
    c.add .Identity P = some P ∧ c.add P .Identity = some P :=
  ⟨add_id_left c P, add_id_right c P⟩

/-- C10: the identity point is absorbed by scalar multiplication:
`scalar_mult(Identity, k) = Identity` for every curve and every `k`. -/
theorem scalar_mult_identity_absorbed (c : EllipticCurve) (k : Nat) :
    c.scalar_mult .Identity k = some .Identity := by
  unfold EllipticCurve.scalar_mult
  split
  next => rfl
  next =>
    split
    next => rfl
    next => exact scalarLoop_identity c k

/-- C5: verification rejects out-of-range signatures by returning `false`
(never a panic): if `r = 0`, `r ≥ n`, `s = 0` or `s ≥ n` then
`verify` returns `some false`. -/
theorem verify_range_rejection (E : ECDSA) (digest r s : Nat) (Q : Point)
    (h : r = 0 ∨ E.order ≤ r ∨ s = 0 ∨ E.order ≤ s) :
    E.verify digest r s Q = some false := by
  unfold ECDSA.verify
  rw [if_pos h]

/-- Witness for C5 at `r = 0`, `s = 1` on the demo context. -/
theorem verify_range_rejection_witness :
    ((0 : Nat) = 0 ∨ demoECDSA.order ≤ 0 ∨ (1 : Nat) = 0 ∨ demoECDSA.order ≤ 1) ∧
      demoECDSA.verify 5 0 1 (.Coordinate 9 16) = some false :=
  ⟨Or.inl rfl, verify_range_rejection demoECDSA 5 0 1 (.Coordinate 9 16) (Or.inl rfl)⟩


/-- C3 (code bug evidence): the signing loop of the source has no retry
bound.  On the demo context, if the random source keeps drawing the nonce
`7` (whose point `7*G = (0, 6)` gives `r = 0`), the loop never produces an
outcome, for any message hash `z`, any private key `d` and any iteration
budget `fuel`: the code loops forever instead of failing with a
`SignatureGenerationFailure` condition. -/
theorem sign_loop_unbounded_on_bad_nonce :
    ∀ fuel i z d, demoECDSA.signLoop z d (fun _ => 7) i fuel = none := by
  intro fuel
  induction fuel with
  | zero => intro i z d; rfl
  | succ m ih =>
    intro i z d
    show (match demoECDSA.signAttempt z d ((fun _ => 7) i) with
      | .retry => demoECDSA.signLoop z d (fun _ => 7) (i + 1) m
      | out => some out) = none
    rw [show ((fun _ : Nat => (7 : Nat)) i) = 7 from rfl, demo_signAttempt_seven]
    exact ih (i + 1) z d

/-- C4 counterexample: `sub(0, 12)` over `p = 11` panics (`BigUint`
underflow in `p - y`) instead of returning the claimed value
`(0 + (11 - 12 % 11)) % 11 = 10`. -/
theorem sub_unreduced_cex :
    (FiniteField.mk 11).sub 0 12 = none ∧
      (FiniteField.mk 11).sub 0 12 ≠ some ((0 + (11 - 12 % 11)) % 11) := by
  decide

/-- C4 amended: for `p > 0`, subtraction is total on all `x` and on
divisors `y ≤ p` (in particular on all reduced operands), where it returns
`(x + (p - y mod p)) mod p`, a value in `[0, p)`; for `y > p` the source
panics. -/
theorem sub_reduced_formula (f : FiniteField) (x y : Nat) (hp : 0 < f.p) (hy : y ≤ f.p) :
    f.sub x y = some ((x + (f.p - y % f.p)) % f.p) ∧ (x + (f.p - y % f.p)) % f.p < f.p := by
  refine ⟨?_, Nat.mod_lt _ hp⟩
  unfold FiniteField.sub FiniteField.add
  rw [if_pos hy]
  rcases Nat.lt_or_ge y f.p with hlt | hge
  · rw [Nat.mod_eq_of_lt hlt]
    rcases Nat.eq_zero_or_pos y with rfl | hpos
    · rw [Nat.sub_zero, Nat.mod_self, Nat.add_zero, Nat.add_mod_right]
    · rw [Nat.mod_eq_of_lt (show f.p - y < f.p by omega)]
  · have hyp : y = f.p := Nat.le_antisymm hy hge
    subst hyp
    rw [Nat.sub_self, Nat.mod_self, Nat.sub_zero, Nat.zero_mod, Nat.add_zero,
      Nat.add_mod_right]

/-- Witness for C4 (amended), matching the repository's `test_sub`:
`sub(17, 3) = 3` over `p = 11`. -/
theorem sub_reduced_formula_witness :
    (0 < 11 ∧ 3 ≤ 11) ∧ (FiniteField.mk 11).sub 17 3 = some 3 := by
  refine ⟨⟨by decide, by decide⟩, ?_⟩
  have h := sub_reduced_formula (FiniteField.mk 11) 17 3 (by decide) (by decide)
  exact h.1.trans (by decide)

/-- For `p ≥ 2`, a literally non-zero divisor makes `div` succeed with the
Fermat-inverse formula. -/
theorem div_succeeds (f : FiniteField) (x y : Nat) (hp : 2 ≤ f.p) (hy : y ≠ 0) :
    f.div x y = some (f.mul x (y ^ (f.p - 2) % f.p)) := by
  unfold FiniteField.div
  rw [if_neg hy, if_neg (by omega)]

/-- C2 counterexample: over `p = 11` the divisor `11` is congruent to
`0 mod p`, yet `div(1, 11)` does not raise `DivisionByZero`: it silently
returns `0`. -/
theorem div_multiple_of_p_cex :
    11 % 11 = 0 ∧ (FiniteField.mk 11).div 1 11 = some 0 := by
  decide

/-- C2 amended: for `p ≥ 2`, `div(x, y)` raises the fatal `DivisionByZero`
condition exactly when `y` is literally `0` (not when `y` is a non-zero
multiple of `p`); otherwise it returns `x * y^(p-2) mod p` without error. -/
theorem div_fails_iff_zero (f : FiniteField) (x y : Nat) (hp : 2 ≤ f.p) :
    (f.div x y = none ↔ y = 0) ∧
      (y ≠ 0 → f.div x y = some (f.mul x (y ^ (f.p - 2) % f.p))) := by
  constructor
  · constructor
    · intro h
      by_contra hy
      rw [div_succeeds f x y hp hy] at h
      cases h
    · intro h
      unfold FiniteField.div
      rw [if_pos h]
  · intro hy
    exact div_succeeds f x y hp hy

/-- Witness for C2 (amended), matching the repository's `test_div`:
`div(17, 3) = 2` over `p = 11`, and `div` fails iff the divisor is `0`. -/
theorem div_fails_iff_zero_witness :
    2 ≤ 11 ∧ ((FiniteField.mk 11).div 17 3 = none ↔ (3 : Nat) = 0) := by
  exact ⟨by decide, (div_fails_iff_zero (FiniteField.mk 11) 17 3 (by decide)).1⟩

/-- C9: the `s`-range check in `verify` runs before the field division
`w = s⁻¹`, so that division is only ever reached with a non-zero divisor
and always succeeds; `verify` then proceeds with the computed `w`. -/
theorem verify_div_guarded (E : ECDSA) (digest r s : Nat) (Q : Point)
    (h : ¬(r = 0 ∨ E.order ≤ r ∨ s = 0 ∨ E.order ≤ s)) :
    ∃ w, (FiniteField.mk E.order).div 1 s = some w ∧
      E.verify digest r s Q = E.verifyWith (E.hash_message digest) r s Q w := by
  push_neg at h
  obtain ⟨hr0, hrn, hs0, hsn⟩ := h
  have hp : 2 ≤ E.order := by omega
  have hdiv := div_succeeds (FiniteField.mk E.order) 1 s hp hs0
  refine ⟨_, hdiv, ?_⟩
  unfold ECDSA.verify
  rw [if_neg (by push_neg; exact ⟨hr0, hrn, hs0, hsn⟩), hdiv]

/-- Witness for C9 at `r = 1`, `s = 1` on the demo context. -/
theorem verify_div_guarded_witness :
    ∃ w, (FiniteField.mk demoECDSA.order).div 1 1 = some w ∧
      demoECDSA.verify 5 1 1 (.Coordinate 9 16) =
        demoECDSA.verifyWith (demoECDSA.hash_message 5) 1 1 (.Coordinate 9 16) w :=
  verify_div_guarded demoECDSA 5 1 1 (.Coordinate 9 16) (by decide)

/-! ## Finite-field cast lemmas -/

/-- Cast of `FiniteField::add` into `ZMod p`. -/
theorem ffadd_cast (f : FiniteField) (x y : Nat) :
    ((f.add x y : Nat) : ZMod f.p) = (x : ZMod f.p) + (y : ZMod f.p) := by
  unfold FiniteField.add
  rw [ZMod.natCast_mod]
  push_cast
  rfl

theorem ffadd_lt (f : FiniteField) (hp : 0 < f.p) (x y : Nat) : f.add x y < f.p :=
  Nat.mod_lt _ hp

/-- Cast of `FiniteField::mul` into `ZMod p`. -/
theorem ffmul_cast (f : FiniteField) (x y : Nat) :
    ((f.mul x y : Nat) : ZMod f.p) = (x : ZMod f.p) * (y : ZMod f.p) := by
  unfold FiniteField.mul
  rw [ZMod.natCast_mod]
  push_cast
  rfl

theorem ffmul_lt (f : FiniteField) (hp : 0 < f.p) (x y : Nat) : f.mul x y < f.p :=
  Nat.mod_lt _ hp

/-- Embedded `FiniteField::sub` succeeds on `y ≤ p` and computes subtraction in `ZMod p`. -/
theorem ffsub_spec (f : FiniteField) (hp : 0 < f.p) (x y : Nat) (hy : y ≤ f.p) :
    ∃ v, f.sub x y = some v ∧ v < f.p ∧
      ((v : ZMod f.p) = (x : ZMod f.p) - (y : ZMod f.p)) := by
  refine ⟨f.add x ((f.p - y) % f.p), ?_, ffadd_lt f hp x _, ?_⟩
  · unfold FiniteField.sub
    rw [if_pos hy]
  · rw [ffadd_cast, ZMod.natCast_mod, Nat.cast_sub hy, ZMod.natCast_self]
    ring

/-- A natural below the modulus with non-zero cast is non-zero, and conversely. -/
theorem natCast_inj_of_lt {p a b : Nat} (ha : a < p) (hb : b < p)
    (h : (a : ZMod p) = (b : ZMod p)) : a = b := by
  have hv := congrArg ZMod.val h
  rwa [ZMod.val_cast_of_lt ha, ZMod.val_cast_of_lt hb] at hv

theorem natCast_ne_zero_of_lt {p a : Nat} (h0 : a ≠ 0) (ha : a < p) :
    (a : ZMod p) ≠ 0 := by
  intro h
  exact h0 (natCast_inj_of_lt ha (by omega) (by rwa [Nat.cast_zero]))

theorem natCast_zero_of_eq_zero {p a : Nat} (h : (a : ZMod p) = 0) (ha : a < p) :
    a = 0 :=
  natCast_inj_of_lt ha (by omega) (by rwa [Nat.cast_zero])

/-- Embedded `FiniteField::div` with a divisor that is a unit mod a prime `p` succeeds
and computes `x * y⁻¹` in `ZMod p`. -/
theorem ffdiv_spec (f : FiniteField) (hp : f.p.Prime) (x y : Nat)
    (hy : (y : ZMod f.p) ≠ 0) :
    ∃ v, f.div x y = some v ∧ v < f.p ∧
      ((v : ZMod f.p) = (x : ZMod f.p) * (y : ZMod f.p)⁻¹) := by
  haveI : Fact f.p.Prime := ⟨hp⟩
  have hy0 : y ≠ 0 := by
    rintro rfl
    exact hy (by rw [Nat.cast_zero])
  have hp2 : 2 ≤ f.p := hp.two_le
  refine ⟨f.mul x (y ^ (f.p - 2) % f.p), ?_, ffmul_lt f (by omega) x _, ?_⟩
  · unfold FiniteField.div
    rw [if_neg hy0, if_neg (by omega)]
  · rw [ffmul_cast, ZMod.natCast_mod]
    push_cast
    have h2 : (y : ZMod f.p) * (y : ZMod f.p) ^ (f.p - 2) = 1 := by
      rw [← pow_succ']
      rw [show f.p - 2 + 1 = f.p - 1 from by omega]
      exact ZMod.pow_card_sub_one_eq_one hy
    rw [inv_eq_of_mul_eq_one_right h2]

/-- The field `c.field` has the curve's modulus. -/
theorem field_p (c : EllipticCurve) : c.field.p = c.p := rfl

/-- Curve-level restatements of the cast lemmas, so that they apply at
type `ZMod c.p`. -/
theorem cadd_cast (c : EllipticCurve) (x y : Nat) :
    ((c.field.add x y : Nat) : ZMod c.p) = (x : ZMod c.p) + (y : ZMod c.p) :=
  ffadd_cast c.field x y

theorem cmul_cast (c : EllipticCurve) (x y : Nat) :
    ((c.field.mul x y : Nat) : ZMod c.p) = (x : ZMod c.p) * (y : ZMod c.p) :=
  ffmul_cast c.field x y

theorem cadd_lt (c : EllipticCurve) (hp : 0 < c.p) (x y : Nat) :
    c.field.add x y < c.p :=
  ffadd_lt c.field hp x y

theorem cmul_lt (c : EllipticCurve) (hp : 0 < c.p) (x y : Nat) :
    c.field.mul x y < c.p :=
  ffmul_lt c.field hp x y

theorem csub_spec (c : EllipticCurve) (hp : 0 < c.p) (x y : Nat) (hy : y ≤ c.p) :
    ∃ v, c.field.sub x y = some v ∧ v < c.p ∧
      ((v : ZMod c.p) = (x : ZMod c.p) - (y : ZMod c.p)) :=
  ffsub_spec c.field hp x y hy

theorem cdiv_spec (c : EllipticCurve) (hp : c.p.Prime) (x y : Nat)
    (hy : (y : ZMod c.p) ≠ 0) :
    ∃ v, c.field.div x y = some v ∧ v < c.p ∧
      ((v : ZMod c.p) = (x : ZMod c.p) * (y : ZMod c.p)⁻¹) :=
  ffdiv_spec c.field hp x y hy

/-! ## The embedded curve equation vs the Mathlib Weierstrass curve -/

theorem zmod_two_ne_zero {p : Nat} (hp : p.Prime) (h2 : p ≠ 2) :
    (2 : ZMod p) ≠ 0 := by
  intro h
  have h' : ((2 : Nat) : ZMod p) = 0 := by push_cast; exact h
  rw [ZMod.natCast_zmod_eq_zero_iff_dvd] at h'
  rcases (Nat.prime_two.eq_one_or_self_of_dvd p h') with h1 | h1
  · exact hp.one_lt.ne' h1
  · exact h2 h1

/-- The Mathlib equation for `toW c` is the textbook equation. -/
theorem toW_equation_iff (c : EllipticCurve) (X Y : ZMod c.p) :
    (toW c).Equation X Y ↔
      Y * Y = X * X * X + (c.a : ZMod c.p) * X + (c.b : ZMod c.p) := by
  rw [WeierstrassCurve.Affine.equation_iff]
  simp only [toW]
  constructor <;> intro h <;> linear_combination h

/-- The predicate `is_on_curve` decides the Mathlib equation on the cast coordinates. -/
theorem is_on_curve_iff (c : EllipticCurve) (x y : Nat) :
    c.is_on_curve (.Coordinate x y) = true ↔
      (toW c).Equation (x : ZMod c.p) (y : ZMod c.p) := by
  rw [toW_equation_iff]
  show (c.field.mul y y ==
    c.field.add (c.field.add (c.field.mul (c.field.mul x x) x) (c.field.mul c.a x)) c.b)
      = true ↔ _
  rw [beq_iff_eq]
  rw [show c.field.mul y y = (y * y) % c.p from rfl]
  rw [show c.field.add (c.field.add (c.field.mul (c.field.mul x x) x) (c.field.mul c.a x)) c.b
      = ((c.field.add (c.field.mul (c.field.mul x x) x) (c.field.mul c.a x)) + c.b) % c.p
    from rfl]
  rw [← ZMod.natCast_eq_natCast_iff']
  push_cast [cadd_cast, cmul_cast]
  constructor <;> intro h <;> linear_combination h

/-- The discriminant of `toW c`. -/
theorem toW_disc (c : EllipticCurve) :
    (toW c).Δ = -16 * (4 * (c.a : ZMod c.p) ^ 3 + 27 * (c.b : ZMod c.p) ^ 2) := by
  simp only [WeierstrassCurve.Δ, WeierstrassCurve.b₂, WeierstrassCurve.b₄,
    WeierstrassCurve.b₆, WeierstrassCurve.b₈, toW]
  ring

/-- Over an odd prime with non-vanishing `4a³ + 27b²`, every point of the
embedded curve equation is nonsingular. -/
theorem toW_nonsingular_of (c : EllipticCurve) (hp : c.p.Prime) (h2 : c.p ≠ 2)
    (hd : (4 * c.a ^ 3 + 27 * c.b ^ 2) % c.p ≠ 0) {X Y : ZMod c.p}
    (heq : (toW c).Equation X Y) : (toW c).Nonsingular X Y := by
  haveI : Fact c.p.Prime := ⟨hp⟩
  refine WeierstrassCurve.Affine.nonsingular_of_Δ_ne_zero (toW c) heq ?_
  rw [toW_disc]
  apply mul_ne_zero
  · have h2' : (2 : ZMod c.p) ≠ 0 := zmod_two_ne_zero hp h2
    intro h
    have h16 : ((-16 : ZMod c.p)) = -(2 ^ 4) := by ring
    rw [h16, neg_eq_zero] at h
    exact h2' ((pow_eq_zero_iff (Nat.succ_ne_zero 3)).mp h)
  · intro h
    apply hd
    have hc : (((4 * c.a ^ 3 + 27 * c.b ^ 2 : Nat)) : ZMod c.p) = 0 := by
      push_cast
      exact h
    rw [ZMod.natCast_zmod_eq_zero_iff_dvd] at hc
    exact Nat.dvd_iff_mod_eq_zero.mp hc

/-! ## Doubling and chord addition match the Mathlib group-law formulas -/

/-- Cast coordinates of distinct reduced naturals are distinct. -/
theorem natCast_ne_of_lt {p a b : Nat} (ha : a < p) (hb : b < p) (h : a ≠ b) :
    (a : ZMod p) ≠ (b : ZMod p) :=
  fun hc => h (natCast_inj_of_lt ha hb hc)

/-- On an odd prime modulus, a reduced point with `y ≠ 0` is not equal to
its own negation on the Mathlib curve. -/
theorem negY_ne (c : EllipticCurve) (hp : c.p.Prime) (h2 : c.p ≠ 2)
    {y : Nat} (hy : y < c.p) (hy0 : y ≠ 0) (X : ZMod c.p) :
    (y : ZMod c.p) ≠ (toW c).negY X (y : ZMod c.p) := by
  intro h
  haveI : Fact c.p.Prime := ⟨hp⟩
  have hyc : (y : ZMod c.p) ≠ 0 := natCast_ne_zero_of_lt hy0 hy
  have h2' : (2 : ZMod c.p) ≠ 0 := zmod_two_ne_zero hp h2
  apply mul_ne_zero h2' hyc
  simp only [WeierstrassCurve.Affine.negY, toW] at h
  linear_combination h

/-- Embedded `EllipticCurve::double` on a reduced point with `y ≠ 0` over an odd
prime: it succeeds, returns reduced coordinates, and the cast coordinates
are Mathlib's tangent-line `addX`/`addY`. -/
theorem double_tangent_spec (c : EllipticCurve) [inst : Fact c.p.Prime] (h2 : c.p ≠ 2)
    {x y : Nat} (hx : x < c.p) (hy : y < c.p) (hy0 : y ≠ 0) :
    ∃ x3 y3, c.double (.Coordinate x y) = some (.Coordinate x3 y3) ∧
      x3 < c.p ∧ y3 < c.p ∧
      (x3 : ZMod c.p) = (toW c).addX (x : ZMod c.p) (x : ZMod c.p)
        ((toW c).slope (x : ZMod c.p) (x : ZMod c.p) (y : ZMod c.p) (y : ZMod c.p)) ∧
      (y3 : ZMod c.p) = (toW c).addY (x : ZMod c.p) (x : ZMod c.p) (y : ZMod c.p)
        ((toW c).slope (x : ZMod c.p) (x : ZMod c.p) (y : ZMod c.p) (y : ZMod c.p)) := by
  have hp : c.p.Prime := inst.out
  have hppos : 0 < c.p := hp.pos
  have hyc : (y : ZMod c.p) ≠ 0 := natCast_ne_zero_of_lt hy0 hy
  have h2' : (2 : ZMod c.p) ≠ 0 := zmod_two_ne_zero hp h2
  have hden : ((c.field.mul 2 y : Nat) : ZMod c.p) = 2 * (y : ZMod c.p) := by
    rw [cmul_cast]
    push_cast
    ring
  have hnum : ((c.field.add (c.field.mul 3 (c.field.mul x x)) c.a : Nat) : ZMod c.p)
      = 3 * (x : ZMod c.p) ^ 2 + (c.a : ZMod c.p) := by
    rw [cadd_cast, cmul_cast, cmul_cast]
    push_cast
    ring
  obtain ⟨sv, hsv, hsvlt, hsvc⟩ := cdiv_spec c hp
    (c.field.add (c.field.mul 3 (c.field.mul x x)) c.a) (c.field.mul 2 y)
    (by rw [hden]; exact mul_ne_zero h2' hyc)
  obtain ⟨x3v, hx3, hx3lt, hx3c⟩ := csub_spec c hppos
    (c.field.mul sv sv) (c.field.mul 2 x) (cmul_lt c hppos 2 x).le
  obtain ⟨dxv, hdx, hdxlt, hdxc⟩ := csub_spec c hppos x x3v hx3lt.le
  obtain ⟨y3v, hy3, hy3lt, hy3c⟩ := csub_spec c hppos (c.field.mul sv dxv) y hy.le
  have hyne : (y : ZMod c.p) ≠ (toW c).negY (x : ZMod c.p) (y : ZMod c.p) :=
    negY_ne c hp h2 hy hy0 _
  have hsL : (sv : ZMod c.p) =
      (toW c).slope (x : ZMod c.p) (x : ZMod c.p) (y : ZMod c.p) (y : ZMod c.p) := by
    rw [hsvc, hnum, hden, WeierstrassCurve.Affine.slope_of_Y_ne rfl hyne]
    simp only [WeierstrassCurve.Affine.negY, toW]
    rw [div_eq_mul_inv]
    congr 1
    · ring
    · congr 1
      ring
  have hxeq : (x3v : ZMod c.p) = (toW c).addX (x : ZMod c.p) (x : ZMod c.p)
      ((toW c).slope (x : ZMod c.p) (x : ZMod c.p) (y : ZMod c.p) (y : ZMod c.p)) := by
    rw [hx3c, cmul_cast, cmul_cast, hsL]
    simp only [WeierstrassCurve.Affine.addX, toW]
    push_cast
    ring
  refine ⟨x3v, y3v, ?_, hx3lt, hy3lt, hxeq, ?_⟩
  · simp only [EllipticCurve.double]
    rw [if_neg hy0]
    simp only [hsv, hx3, hdx, hy3, Option.bind_eq_bind', Option.some_bind']
  · rw [hy3c, cmul_cast, hdxc, hsL, hxeq]
    simp only [WeierstrassCurve.Affine.addY, WeierstrassCurve.Affine.negAddY,
      WeierstrassCurve.Affine.negY, toW]
    ring

/-- Embedded `EllipticCurve::add` on reduced points with distinct `x` over a prime
modulus: it succeeds, returns reduced coordinates, and the cast coordinates
are Mathlib's secant-line `addX`/`addY`. -/
theorem add_chord_spec (c : EllipticCurve) [inst : Fact c.p.Prime]
    {x1 y1 x2 y2 : Nat} (hx1 : x1 < c.p) (hy1 : y1 < c.p) (hx2 : x2 < c.p)
    (hy2 : y2 < c.p) (hne : x1 ≠ x2) :
    ∃ x3 y3, c.add (.Coordinate x1 y1) (.Coordinate x2 y2) = some (.Coordinate x3 y3) ∧
      x3 < c.p ∧ y3 < c.p ∧
      (x3 : ZMod c.p) = (toW c).addX (x1 : ZMod c.p) (x2 : ZMod c.p)
        ((toW c).slope (x1 : ZMod c.p) (x2 : ZMod c.p) (y1 : ZMod c.p) (y2 : ZMod c.p)) ∧
      (y3 : ZMod c.p) = (toW c).addY (x1 : ZMod c.p) (x2 : ZMod c.p) (y1 : ZMod c.p)
        ((toW c).slope (x1 : ZMod c.p) (x2 : ZMod c.p) (y1 : ZMod c.p) (y2 : ZMod c.p)) := by
  have hp : c.p.Prime := inst.out
  have hppos : 0 < c.p := hp.pos
  have hnec : (x1 : ZMod c.p) ≠ (x2 : ZMod c.p) := natCast_ne_of_lt hx1 hx2 hne
  obtain ⟨dyv, hdy, hdylt, hdyc⟩ := csub_spec c hppos y2 y1 hy1.le
  obtain ⟨dxv, hdx, hdxlt, hdxc⟩ := csub_spec c hppos x2 x1 hx1.le
  have hdx0 : (dxv : ZMod c.p) ≠ 0 := by
    rw [hdxc]
    exact sub_ne_zero_of_ne (Ne.symm hnec)
  obtain ⟨sv, hsv, hsvlt, hsvc⟩ := cdiv_spec c hp dyv dxv hdx0
  obtain ⟨tv, ht, htlt, htc⟩ := csub_spec c hppos (c.field.mul sv sv) x1 hx1.le
  obtain ⟨x3v, hx3, hx3lt, hx3c⟩ := csub_spec c hppos tv x2 hx2.le
  obtain ⟨dv, hd, hdlt, hdc⟩ := csub_spec c hppos x1 x3v hx3lt.le
  obtain ⟨y3v, hy3, hy3lt, hy3c⟩ := csub_spec c hppos (c.field.mul sv dv) y1 hy1.le
  have hsL : (sv : ZMod c.p) = (toW c).slope (x1 : ZMod c.p) (x2 : ZMod c.p)
      (y1 : ZMod c.p) (y2 : ZMod c.p) := by
    rw [hsvc, hdyc, hdxc, WeierstrassCurve.Affine.slope_of_X_ne hnec]
    have hb : (x1 : ZMod c.p) - (x2 : ZMod c.p) ≠ 0 := sub_ne_zero_of_ne hnec
    have hb' : (x2 : ZMod c.p) - (x1 : ZMod c.p) ≠ 0 := sub_ne_zero_of_ne (Ne.symm hnec)
    field_simp
    ring
  have hxeq : (x3v : ZMod c.p) = (toW c).addX (x1 : ZMod c.p) (x2 : ZMod c.p)
      ((toW c).slope (x1 : ZMod c.p) (x2 : ZMod c.p) (y1 : ZMod c.p) (y2 : ZMod c.p)) := by
    rw [hx3c, htc, cmul_cast, hsL]
    simp only [WeierstrassCurve.Affine.addX, toW]
    ring
  refine ⟨x3v, y3v, ?_, hx3lt, hy3lt, hxeq, ?_⟩
  · simp only [EllipticCurve.add]
    rw [if_neg hne]
    simp only [hdy, hdx, hsv, ht, hx3, hd, hy3, Option.bind_eq_bind', Option.some_bind']
  · rw [hy3c, cmul_cast, hdc, hsL, hxeq]
    simp only [WeierstrassCurve.Affine.addY, WeierstrassCurve.Affine.negAddY,
      WeierstrassCurve.Affine.negY, toW]
    ring

/-! ## Closure of the group law (C6) -/

theorem reduced_coord (c : EllipticCurve) {x y : Nat}
    (h : reducedPt c (.Coordinate x y) = true) : x < c.p ∧ y < c.p := by
  simpa [reducedPt] using h

theorem reduced_coord_mk (c : EllipticCurve) {x y : Nat} (hx : x < c.p) (hy : y < c.p) :
    reducedPt c (.Coordinate x y) = true := by
  simp [reducedPt, hx, hy]

/-- Doubling an on-curve reduced point over an odd prime succeeds and stays
on the curve, with reduced output. -/
theorem double_closure (c : EllipticCurve) (hp : c.p.Prime) (h2 : c.p ≠ 2)
    {P : Point} (hP : c.is_on_curve P = true) (hPr : reducedPt c P = true) :
    ∃ R, c.double P = some R ∧ c.is_on_curve R = true ∧ reducedPt c R = true := by
  haveI : Fact c.p.Prime := ⟨hp⟩
  cases P with
  | Identity => exact ⟨.Identity, rfl, rfl, rfl⟩
  | Coordinate x y =>
    obtain ⟨hx, hy⟩ := reduced_coord c hPr
    by_cases hy0 : y = 0
    · subst hy0
      refine ⟨.Identity, ?_, rfl, rfl⟩
      simp [EllipticCurve.double]
    · obtain ⟨x3, y3, hdbl, hx3, hy3, hxc, hyc⟩ := double_tangent_spec c h2 hx hy hy0
      have heq := (is_on_curve_iff c x y).mp hP
      have hxy : (x : ZMod c.p) = (x : ZMod c.p) →
          (y : ZMod c.p) ≠ (toW c).negY (x : ZMod c.p) (y : ZMod c.p) :=
        fun _ => negY_ne c hp h2 hy hy0 _
      refine ⟨.Coordinate x3 y3, hdbl, ?_, reduced_coord_mk c hx3 hy3⟩
      rw [is_on_curve_iff, hxc, hyc]
      exact WeierstrassCurve.Affine.equation_add heq heq hxy

/-- Adding two on-curve reduced points over an odd prime succeeds and stays
on the curve, with reduced output. -/
theorem add_closure (c : EllipticCurve) (hp : c.p.Prime) (h2 : c.p ≠ 2)
    {P Q : Point} (hP : c.is_on_curve P = true) (hPr : reducedPt c P = true)
    (hQ : c.is_on_curve Q = true) (hQr : reducedPt c Q = true) :
    ∃ R, c.add P Q = some R ∧ c.is_on_curve R = true ∧ reducedPt c R = true := by
  haveI : Fact c.p.Prime := ⟨hp⟩
  cases P with
  | Identity =>
    refine ⟨Q, ?_, hQ, hQr⟩
    cases Q <;> rfl
  | Coordinate x1 y1 =>
    cases Q with
    | Identity => exact ⟨.Coordinate x1 y1, rfl, hP, hPr⟩
    | Coordinate x2 y2 =>
      obtain ⟨hx1, hy1⟩ := reduced_coord c hPr
      obtain ⟨hx2, hy2⟩ := reduced_coord c hQr
      by_cases hx : x1 = x2
      · subst hx
        by_cases hy : y1 = y2
        · subst hy
          obtain ⟨R, hR, hRon, hRred⟩ := double_closure c hp h2 hP hPr
          refine ⟨R, ?_, hRon, hRred⟩
          have heq : c.add (.Coordinate x1 y1) (.Coordinate x1 y1)
              = c.double (.Coordinate x1 y1) := by
            simp [EllipticCurve.add]
          rw [heq]
          exact hR
        · refine ⟨.Identity, ?_, rfl, rfl⟩
          simp [EllipticCurve.add, hy]
      · obtain ⟨x3, y3, hadd, hx3, hy3, hxc, hyc⟩ :=
          add_chord_spec c hx1 hy1 hx2 hy2 hx
        have h1 := (is_on_curve_iff c x1 y1).mp hP
        have h2' := (is_on_curve_iff c x2 y2).mp hQ
        have hxy : (x1 : ZMod c.p) = (x2 : ZMod c.p) →
            (y1 : ZMod c.p) ≠ (toW c).negY (x2 : ZMod c.p) (y2 : ZMod c.p) :=
          fun hc => (natCast_ne_of_lt hx1 hx2 hx hc).elim
        refine ⟨.Coordinate x3 y3, hadd, ?_, reduced_coord_mk c hx3 hy3⟩
        rw [is_on_curve_iff, hxc, hyc]
        exact WeierstrassCurve.Affine.equation_add h1 h2' hxy

/-- The double-and-add loop preserves on-curve reduced points. -/
theorem scalarLoop_closure (c : EllipticCurve) (hp : c.p.Prime) (h2 : c.p ≠ 2) :
    ∀ (n : Nat) {res addend : Point},
      c.is_on_curve res = true → reducedPt c res = true →
      c.is_on_curve addend = true → reducedPt c addend = true →
      ∃ R, c.scalarLoop res addend n = some R ∧
        c.is_on_curve R = true ∧ reducedPt c R = true := by
  intro n
  induction n using Nat.strong_induction_on with
  | _ n ih =>
    intro res addend hr1 hr2 ha1 ha2
    by_cases h0 : n = 0
    · subst h0
      refine ⟨res, ?_, hr1, hr2⟩
      rw [EllipticCurve.scalarLoop]
      rfl
    · have hstep : ∃ r', (if n % 2 = 1 then c.add res addend else some res) = some r' ∧
          c.is_on_curve r' = true ∧ reducedPt c r' = true := by
        split
        · exact add_closure c hp h2 hr1 hr2 ha1 ha2
        · exact ⟨res, rfl, hr1, hr2⟩
      obtain ⟨r', hr', hr'on, hr'red⟩ := hstep
      obtain ⟨a', ha', ha'on, ha'red⟩ := double_closure c hp h2 ha1 ha2
      obtain ⟨R, hR, hRon, hRred⟩ :=
        ih (n / 2) (Nat.div_lt_self (Nat.pos_of_ne_zero h0) Nat.one_lt_two)
          hr'on hr'red ha'on ha'red
      refine ⟨R, ?_, hRon, hRred⟩
      rw [EllipticCurve.scalarLoop]
      simp only [dif_neg h0, hr', ha']
      exact hR

/-- Scalar multiplication of an on-curve reduced point over an odd prime
succeeds and stays on the curve, with reduced output. -/
theorem scalar_mult_closure (c : EllipticCurve) (hp : c.p.Prime) (h2 : c.p ≠ 2)
    {P : Point} (hP : c.is_on_curve P = true) (hPr : reducedPt c P = true) (k : Nat) :
    ∃ R, c.scalar_mult P k = some R ∧
      c.is_on_curve R = true ∧ reducedPt c R = true := by
  unfold EllipticCurve.scalar_mult
  by_cases h0 : k = 0
  · subst h0
    exact ⟨.Identity, rfl, rfl, rfl⟩
  · rw [if_neg h0]
    by_cases h1 : k = 1
    · subst h1
      exact ⟨P, rfl, hP, hPr⟩
    · rw [if_neg h1]
      exact scalarLoop_closure c hp h2 k rfl rfl hP hPr

/-- C6 counterexample: on the curve `y² = x³ + 1` over `p = 2`, the point
`(0, 1)` is on the curve with reduced coordinates, yet `double` panics
(division by the zero `2y mod 2`) and produces no on-curve result. -/
theorem closure_cex :
    (EllipticCurve.mk 0 1 2).is_on_curve (.Coordinate 0 1) = true ∧
      reducedPt (EllipticCurve.mk 0 1 2) (.Coordinate 0 1) = true ∧
      (EllipticCurve.mk 0 1 2).double (.Coordinate 0 1) = none := by
  decide

/-- C6 amended: over an odd prime modulus, `add`, `double` and
`scalar_mult` of on-curve points with reduced coordinates succeed and
produce points satisfying `is_on_curve`. -/
theorem group_ops_closure (c : EllipticCurve) (hp : c.p.Prime) (h2 : c.p ≠ 2)
    {P Q : Point} (hP : c.is_on_curve P = true) (hPr : reducedPt c P = true)
    (hQ : c.is_on_curve Q = true) (hQr : reducedPt c Q = true) (k : Nat) :
    (∃ R, c.add P Q = some R ∧ c.is_on_curve R = true) ∧
      (∃ R, c.double P = some R ∧ c.is_on_curve R = true) ∧
      (∃ R, c.scalar_mult P k = some R ∧ c.is_on_curve R = true) := by
  obtain ⟨R1, e1, o1, _⟩ := add_closure c hp h2 hP hPr hQ hQr
  obtain ⟨R2, e2, o2, _⟩ := double_closure c hp h2 hP hPr
  obtain ⟨R3, e3, o3, _⟩ := scalar_mult_closure c hp h2 hP hPr k
  exact ⟨⟨R1, e1, o1⟩, ⟨R2, e2, o2⟩, ⟨R3, e3, o3⟩⟩

/-- Witness for C6 (amended) on the demo curve with `P = G`, `Q = 2G`,
`k = 5`. -/
theorem group_ops_closure_witness :
    ((17 : Nat).Prime ∧ (17 : Nat) ≠ 2 ∧
      (EllipticCurve.mk 2 2 17).is_on_curve (.Coordinate 5 1) = true ∧
      reducedPt (EllipticCurve.mk 2 2 17) (.Coordinate 5 1) = true ∧
      (EllipticCurve.mk 2 2 17).is_on_curve (.Coordinate 6 3) = true ∧
      reducedPt (EllipticCurve.mk 2 2 17) (.Coordinate 6 3) = true) ∧
    ((∃ R, (EllipticCurve.mk 2 2 17).add (.Coordinate 5 1) (.Coordinate 6 3) = some R ∧
        (EllipticCurve.mk 2 2 17).is_on_curve R = true) ∧
      (∃ R, (EllipticCurve.mk 2 2 17).double (.Coordinate 5 1) = some R ∧
        (EllipticCurve.mk 2 2 17).is_on_curve R = true) ∧
      (∃ R, (EllipticCurve.mk 2 2 17).scalar_mult (.Coordinate 5 1) 5 = some R ∧
        (EllipticCurve.mk 2 2 17).is_on_curve R = true)) :=
  ⟨⟨by decide, by decide, by decide, by decide, by decide, by decide⟩,
    group_ops_closure (EllipticCurve.mk 2 2 17) (by decide) (by decide)
      (by decide) (by decide) (by decide) (by decide) 5⟩

/-! ## Double-and-add structure of scalar multiplication (C7) -/

theorem csub_lt (c : EllipticCurve) (hp : 0 < c.p) {a b v : Nat}
    (h : c.field.sub a b = some v) : v < c.p := by
  unfold FiniteField.sub at h
  split at h
  · cases h
    exact cadd_lt c hp a _
  · cases h

/-- Shape of a successful doubling: the identity, or a reduced coordinate
point. -/
theorem double_output (c : EllipticCurve) (hp : 0 < c.p) {x y : Nat} {R : Point}
    (h : c.double (.Coordinate x y) = some R) :
    R = .Identity ∨ ∃ x3 y3, R = .Coordinate x3 y3 ∧ x3 < c.p ∧ y3 < c.p := by
  simp only [EllipticCurve.double] at h
  split at h
  · cases h
    exact Or.inl rfl
  · rcases hdiv : c.field.div (c.field.add (c.field.mul 3 (c.field.mul x x)) c.a)
        (c.field.mul 2 y) with _ | s
    · rw [hdiv] at h
      cases h
    · simp only [hdiv, Option.bind_eq_bind', Option.some_bind'] at h
      rcases h1 : c.field.sub (c.field.mul s s) (c.field.mul 2 x) with _ | x3
      · rw [h1] at h
        cases h
      · simp only [h1, Option.bind_eq_bind', Option.some_bind'] at h
        rcases h2 : c.field.sub x x3 with _ | dx
        · rw [h2] at h
          cases h
        · simp only [h2, Option.bind_eq_bind', Option.some_bind'] at h
          rcases h3 : c.field.sub (c.field.mul s dx) y with _ | y3
          · rw [h3] at h
            cases h
          · simp only [h3, Option.bind_eq_bind', Option.some_bind'] at h
            cases h
            exact Or.inr ⟨x3, y3, rfl, csub_lt c hp h1, csub_lt c hp h3⟩

/-- Over `p = 2`, doubling never produces a coordinate point: the tangent
denominator `2y mod 2` is zero, so the division panics whenever `y ≠ 0`. -/
theorem double_p2_no_coord (c : EllipticCurve) (hp2 : c.p = 2) {x y x3 y3 : Nat} :
    c.double (.Coordinate x y) ≠ some (.Coordinate x3 y3) := by
  intro h
  simp only [EllipticCurve.double] at h
  split at h
  · cases h
  · have hden : c.field.mul 2 y = 0 := by
      show (2 * y) % c.p = 0
      rw [hp2]
      omega
    have hdiv : c.field.div (c.field.add (c.field.mul 3 (c.field.mul x x)) c.a)
        (c.field.mul 2 y) = none := by
      unfold FiniteField.div
      rw [if_pos hden]
    rw [hdiv] at h
    cases h

/-- Doubling a reduced coordinate point over an odd prime always succeeds. -/
theorem double_total (c : EllipticCurve) [Fact c.p.Prime] (h2 : c.p ≠ 2)
    {x y : Nat} (hx : x < c.p) (hy : y < c.p) :
    ∃ R, c.double (.Coordinate x y) = some R := by
  by_cases hy0 : y = 0
  · subst hy0
    refine ⟨.Identity, ?_⟩
    simp [EllipticCurve.double]
  · obtain ⟨x3, y3, hdbl, -, -, -, -⟩ := double_tangent_spec c h2 hx hy hy0
    exact ⟨.Coordinate x3 y3, hdbl⟩

/-- Unfolding `scalar_mult` at `k = 2`: the loop performs the doubling, a
trivial identity addition, and one extra (discarded) doubling. -/
theorem scalar_mult_two (c : EllipticCurve) (P : Point) :
    c.scalar_mult P 2 =
      (c.double P).bind (fun D => (c.double D).bind (fun _ => some D)) := by
  cases hD : c.double P with
  | none => simp [EllipticCurve.scalar_mult, EllipticCurve.scalarLoop, hD]
  | some D =>
    cases hD2 : c.double D with
    | none =>
      simp [EllipticCurve.scalar_mult, EllipticCurve.scalarLoop, hD, hD2,
        add_id_left c D]
    | some A =>
      simp [EllipticCurve.scalar_mult, EllipticCurve.scalarLoop, hD, hD2,
        add_id_left c D]

/-- Unfolding `scalar_mult` at `k = 3`. -/
theorem scalar_mult_three (c : EllipticCurve) (P : Point) :
    c.scalar_mult P 3 =
      (c.double P).bind (fun D =>
        (c.add P D).bind (fun S => (c.double D).bind (fun _ => some S))) := by
  cases hD : c.double P with
  | none => simp [EllipticCurve.scalar_mult, EllipticCurve.scalarLoop, hD,
      add_id_left c P]
  | some D =>
    cases hS : c.add P D with
    | none =>
      simp [EllipticCurve.scalar_mult, EllipticCurve.scalarLoop, hD, hS,
        add_id_left c P]
    | some S =>
      cases hD2 : c.double D with
      | none =>
        simp [EllipticCurve.scalar_mult, EllipticCurve.scalarLoop, hD, hS, hD2,
          add_id_left c P]
      | some A =>
        simp [EllipticCurve.scalar_mult, EllipticCurve.scalarLoop, hD, hS, hD2,
          add_id_left c P]

theorem toW_a1 (c : EllipticCurve) : (toW c).a₁ = 0 := rfl

theorem toW_a2 (c : EllipticCurve) : (toW c).a₂ = 0 := rfl

theorem toW_a3 (c : EllipticCurve) : (toW c).a₃ = 0 := rfl

/-- Point addition on reduced coordinate points is commutative (prime
modulus): the chord formulas agree after swapping the arguments. -/
theorem add_comm_reduced (c : EllipticCurve) [inst : Fact c.p.Prime]
    {x1 y1 x2 y2 : Nat} (hx1 : x1 < c.p) (hy1 : y1 < c.p) (hx2 : x2 < c.p)
    (hy2 : y2 < c.p) :
    c.add (.Coordinate x1 y1) (.Coordinate x2 y2)
      = c.add (.Coordinate x2 y2) (.Coordinate x1 y1) := by
  by_cases hx : x1 = x2
  · subst hx
    by_cases hy : y1 = y2
    · subst hy
      rfl
    · simp [EllipticCurve.add, hy, Ne.symm hy]
  · have hnec : (x1 : ZMod c.p) ≠ (x2 : ZMod c.p) := natCast_ne_of_lt hx1 hx2 hx
    obtain ⟨x3, y3, e1, l3, l4, c3, c4⟩ := add_chord_spec c hx1 hy1 hx2 hy2 hx
    obtain ⟨x3', y3', e2, l3', l4', c3', c4'⟩ :=
      add_chord_spec c hx2 hy2 hx1 hy1 (Ne.symm hx)
    have hL : (toW c).slope (x1 : ZMod c.p) (x2 : ZMod c.p) (y1 : ZMod c.p) (y2 : ZMod c.p)
        = (toW c).slope (x2 : ZMod c.p) (x1 : ZMod c.p) (y2 : ZMod c.p) (y1 : ZMod c.p) := by
      rw [WeierstrassCurve.Affine.slope_of_X_ne hnec,
        WeierstrassCurve.Affine.slope_of_X_ne (Ne.symm hnec),
        div_eq_div_iff (sub_ne_zero_of_ne hnec) (sub_ne_zero_of_ne (Ne.symm hnec))]
      ring
    have hLdef : (toW c).slope (x1 : ZMod c.p) (x2 : ZMod c.p) (y1 : ZMod c.p) (y2 : ZMod c.p)
        * ((x1 : ZMod c.p) - (x2 : ZMod c.p)) = (y1 : ZMod c.p) - (y2 : ZMod c.p) := by
      rw [WeierstrassCurve.Affine.slope_of_X_ne hnec]
      exact div_mul_cancel₀ _ (sub_ne_zero_of_ne hnec)
    have hXeq : (toW c).addX (x1 : ZMod c.p) (x2 : ZMod c.p)
          ((toW c).slope (x1 : ZMod c.p) (x2 : ZMod c.p) (y1 : ZMod c.p) (y2 : ZMod c.p))
        = (toW c).addX (x2 : ZMod c.p) (x1 : ZMod c.p)
          ((toW c).slope (x2 : ZMod c.p) (x1 : ZMod c.p) (y2 : ZMod c.p) (y1 : ZMod c.p)) := by
      rw [← hL]
      simp only [WeierstrassCurve.Affine.addX]
      ring
    have hYeq : (toW c).addY (x1 : ZMod c.p) (x2 : ZMod c.p) (y1 : ZMod c.p)
          ((toW c).slope (x1 : ZMod c.p) (x2 : ZMod c.p) (y1 : ZMod c.p) (y2 : ZMod c.p))
        = (toW c).addY (x2 : ZMod c.p) (x1 : ZMod c.p) (y2 : ZMod c.p)
          ((toW c).slope (x2 : ZMod c.p) (x1 : ZMod c.p) (y2 : ZMod c.p) (y1 : ZMod c.p)) := by
      rw [← hL]
      simp only [WeierstrassCurve.Affine.addY, WeierstrassCurve.Affine.negAddY,
        WeierstrassCurve.Affine.negY, WeierstrassCurve.Affine.addX, toW_a1, toW_a2, toW_a3]
      linear_combination hLdef
    have ex : x3 = x3' := natCast_inj_of_lt l3 l3' (by rw [c3, c3', hXeq])
    have ey : y3 = y3' := natCast_inj_of_lt l4 l4' (by rw [c4, c4', hYeq])
    rw [e1, e2, ex, ey]

/-- Equality `scalar_mult(P, 2) = add(P, P)` on reduced points over a prime modulus,
panic behaviour included. -/
theorem scalar_mult_two_eq_add (c : EllipticCurve) (hp : c.p.Prime)
    {P : Point} (hPr : reducedPt c P = true) :
    c.scalar_mult P 2 = c.add P P := by
  haveI : Fact c.p.Prime := ⟨hp⟩
  cases P with
  | Identity =>
    have hrhs : c.add .Identity .Identity = some .Identity := rfl
    rw [hrhs]
    unfold EllipticCurve.scalar_mult
    rw [if_neg (by omega), if_neg (by omega)]
    exact scalarLoop_identity c 2
  | Coordinate x y =>
    obtain ⟨hx, hy⟩ := reduced_coord c hPr
    have hRHS : c.add (.Coordinate x y) (.Coordinate x y)
        = c.double (.Coordinate x y) := by
      simp [EllipticCurve.add]
    rw [scalar_mult_two, hRHS]
    cases hD : c.double (.Coordinate x y) with
    | none => rfl
    | some D =>
      rcases double_output c hp.pos hD with rfl | ⟨x3, y3, rfl, hx3, hy3⟩
      · rfl
      · by_cases hp2 : c.p = 2
        · exact absurd hD (double_p2_no_coord c hp2)
        · obtain ⟨E, hE⟩ := double_total c hp2 hx3 hy3
          simp [hE]

/-- Equality `scalar_mult(P, 3) = add(scalar_mult(P, 2), P)` on reduced points over a
prime modulus, panic behaviour included. -/
theorem scalar_mult_three_eq (c : EllipticCurve) (hp : c.p.Prime)
    {P : Point} (hPr : reducedPt c P = true) :
    c.scalar_mult P 3 = (c.scalar_mult P 2).bind (fun q => c.add q P) := by
  haveI : Fact c.p.Prime := ⟨hp⟩
  rw [scalar_mult_three, scalar_mult_two]
  cases P with
  | Identity => rfl
  | Coordinate x y =>
    obtain ⟨hx, hy⟩ := reduced_coord c hPr
    cases hD : c.double (.Coordinate x y) with
    | none => rfl
    | some D =>
      simp only [Option.bind_eq_bind', Option.some_bind']
      cases hD2 : c.double D with
      | none =>
        cases hS : c.add (.Coordinate x y) D with
        | none => rfl
        | some S => rfl
      | some A =>
        have hcomm : c.add (.Coordinate x y) D = c.add D (.Coordinate x y) := by
          rcases double_output c hp.pos hD with rfl | ⟨x3, y3, rfl, hx3, hy3⟩
          · rw [add_id_right, add_id_left]
          · exact add_comm_reduced c hx hy hx3 hy3
        have hL : (c.add (.Coordinate x y) D).bind
              (fun S => (some A).bind (fun _ => some S))
            = c.add (.Coordinate x y) D := by
          cases c.add (.Coordinate x y) D <;> rfl
        rw [hL, hcomm]
        rfl

/-- C7: `scalar_mult` is least-significant-bit-first double-and-add with
explicit fast paths: `k = 0` and `k = 1` short-circuit, every `k ≥ 2` runs
the loop from `result = Identity`, `addend = P`, and in particular
`scalar_mult(P, 2) = add(P, P)` and
`scalar_mult(P, 3) = add(scalar_mult(P, 2), P)` on reduced points over a
prime modulus (panic behaviour included). -/
theorem scalar_mult_double_and_add (c : EllipticCurve) (hp : c.p.Prime)
    (P : Point) (hPr : reducedPt c P = true) (k : Nat) :
    c.scalar_mult P 0 = some .Identity ∧
      c.scalar_mult P 1 = some P ∧
      (2 ≤ k → c.scalar_mult P k = c.scalarLoop .Identity P k) ∧
      c.scalar_mult P 2 = c.add P P ∧
      c.scalar_mult P 3 = (c.scalar_mult P 2).bind (fun q => c.add q P) := by
  refine ⟨rfl, rfl, ?_, scalar_mult_two_eq_add c hp hPr, scalar_mult_three_eq c hp hPr⟩
  intro hk
  unfold EllipticCurve.scalar_mult
  rw [if_neg (by omega), if_neg (by omega)]

/-- Witness for C7 on the demo curve with `P = G` and `k = 5`. -/
theorem scalar_mult_double_and_add_witness :
    ((17 : Nat).Prime ∧ reducedPt (EllipticCurve.mk 2 2 17) (.Coordinate 5 1) = true) ∧
    ((EllipticCurve.mk 2 2 17).scalar_mult (.Coordinate 5 1) 0 = some .Identity ∧
      (EllipticCurve.mk 2 2 17).scalar_mult (.Coordinate 5 1) 1 = some (.Coordinate 5 1) ∧
      (2 ≤ 5 → (EllipticCurve.mk 2 2 17).scalar_mult (.Coordinate 5 1) 5
        = (EllipticCurve.mk 2 2 17).scalarLoop .Identity (.Coordinate 5 1) 5) ∧
      (EllipticCurve.mk 2 2 17).scalar_mult (.Coordinate 5 1) 2
        = (EllipticCurve.mk 2 2 17).add (.Coordinate 5 1) (.Coordinate 5 1) ∧
      (EllipticCurve.mk 2 2 17).scalar_mult (.Coordinate 5 1) 3
        = ((EllipticCurve.mk 2 2 17).scalar_mult (.Coordinate 5 1) 2).bind
            (fun q => (EllipticCurve.mk 2 2 17).add q (.Coordinate 5 1))) :=
  ⟨⟨by decide, by decide⟩,
    scalar_mult_double_and_add (EllipticCurve.mk 2 2 17) (by decide)
      (.Coordinate 5 1) (by decide) 5⟩

/-! ## Correspondence with the Mathlib group law (C1) -/

theorem PtCorr_coord_of_eq (c : EllipticCurve) {x y : Nat} (hx : x < c.p)
    (hy : y < c.p) {X Y : ZMod c.p} (hX : (x : ZMod c.p) = X)
    (hY : (y : ZMod c.p) = Y) (h : (toW c).Nonsingular X Y) :
    PtCorr c (.Coordinate x y) (.some h) := by
  subst hX
  subst hY
  exact PtCorr.coord x y hx hy h

/-- Doubling corresponds to Mathlib's `P' + P'`. -/
theorem corr_double (c : EllipticCurve) [inst : Fact c.p.Prime] (h2 : c.p ≠ 2)
    {P : Point} {P' : (toW c).Point} (h : PtCorr c P P') :
    ∃ R, c.double P = some R ∧ PtCorr c R (P' + P') := by
  cases h with
  | identity =>
    refine ⟨.Identity, rfl, ?_⟩
    rw [add_zero]
    exact PtCorr.identity
  | coord x y hx hy hns =>
    by_cases hy0 : y = 0
    · subst hy0
      refine ⟨.Identity, by simp [EllipticCurve.double], ?_⟩
      have hyeq : ((0 : Nat) : ZMod c.p)
          = (toW c).negY (x : ZMod c.p) ((0 : Nat) : ZMod c.p) := by
        simp [WeierstrassCurve.Affine.negY, toW_a1, toW_a3]
      rw [WeierstrassCurve.Affine.Point.add_self_of_Y_eq hyeq]
      exact PtCorr.identity
    · obtain ⟨x3, y3, hdbl, hx3, hy3, hxc, hyc⟩ := double_tangent_spec c h2 hx hy hy0
      have hyne : (y : ZMod c.p) ≠ (toW c).negY (x : ZMod c.p) (y : ZMod c.p) :=
        negY_ne c inst.out h2 hy hy0 _
      refine ⟨.Coordinate x3 y3, hdbl, ?_⟩
      rw [WeierstrassCurve.Affine.Point.add_self_of_Y_ne hyne]
      exact PtCorr_coord_of_eq c hx3 hy3 hxc hyc _

/-- Point addition corresponds to Mathlib's `P' + Q'`. -/
theorem corr_add (c : EllipticCurve) [inst : Fact c.p.Prime] (h2 : c.p ≠ 2)
    {P Q : Point} {P' Q' : (toW c).Point} (hP : PtCorr c P P') (hQ : PtCorr c Q Q') :
    ∃ R, c.add P Q = some R ∧ PtCorr c R (P' + Q') := by
  cases hP with
  | identity =>
    refine ⟨Q, add_id_left c Q, ?_⟩
    rwa [zero_add]
  | coord x1 y1 hx1 hy1 h1 =>
    cases hQ with
    | identity =>
      refine ⟨.Coordinate x1 y1, add_id_right c _, ?_⟩
      rw [add_zero]
      exact PtCorr.coord x1 y1 hx1 hy1 h1
    | coord x2 y2 hx2 hy2 hq =>
      by_cases hx : x1 = x2
      · subst hx
        by_cases hy : y1 = y2
        · subst hy
          obtain ⟨R, hR, hcorr⟩ := corr_double c h2 (PtCorr.coord x1 y1 hx1 hy1 h1)
          refine ⟨R, ?_, ?_⟩
          · have heq : c.add (.Coordinate x1 y1) (.Coordinate x1 y1)
                = c.double (.Coordinate x1 y1) := by
              simp [EllipticCurve.add]
            rw [heq]
            exact hR
          · rw [show (WeierstrassCurve.Affine.Point.some hq)
                = WeierstrassCurve.Affine.Point.some h1 from
              congrArg _ (Subsingleton.elim hq h1)]
            exact hcorr
        · have hyne : (y1 : ZMod c.p) ≠ (y2 : ZMod c.p) := natCast_ne_of_lt hy1 hy2 hy
          have hyeq : (y1 : ZMod c.p) = (toW c).negY (x1 : ZMod c.p) (y2 : ZMod c.p) :=
            (WeierstrassCurve.Affine.Y_eq_of_X_eq h1.1 hq.1 rfl).resolve_left hyne
          refine ⟨.Identity, by simp [EllipticCurve.add, hy], ?_⟩
          rw [WeierstrassCurve.Affine.Point.add_of_Y_eq rfl hyeq]
          exact PtCorr.identity
      · obtain ⟨x3, y3, hadd, hx3, hy3, hxc, hyc⟩ := add_chord_spec c hx1 hy1 hx2 hy2 hx
        have hnec : (x1 : ZMod c.p) ≠ (x2 : ZMod c.p) := natCast_ne_of_lt hx1 hx2 hx
        refine ⟨.Coordinate x3 y3, hadd, ?_⟩
        rw [WeierstrassCurve.Affine.Point.add_of_X_ne hnec]
        exact PtCorr_coord_of_eq c hx3 hy3 hxc hyc _

/-- The double-and-add loop corresponds to `R' + n • A'`. -/
theorem corr_scalarLoop (c : EllipticCurve) [Fact c.p.Prime] (h2 : c.p ≠ 2) :
    ∀ (n : Nat) {res addend : Point} {R' A' : (toW c).Point},
      PtCorr c res R' → PtCorr c addend A' →
      ∃ R, c.scalarLoop res addend n = some R ∧ PtCorr c R (R' + n • A') := by
  intro n
  induction n using Nat.strong_induction_on with
  | _ n ih =>
    intro res addend R' A' hres hadd
    by_cases h0 : n = 0
    · subst h0
      refine ⟨res, ?_, ?_⟩
      · rw [EllipticCurve.scalarLoop]
        rfl
      · rw [zero_nsmul, add_zero]
        exact hres
    · have hstep : ∃ r', (if n % 2 = 1 then c.add res addend else some res) = some r' ∧
          PtCorr c r' (R' + (n % 2) • A') := by
        by_cases hbit : n % 2 = 1
        · rw [if_pos hbit, hbit]
          obtain ⟨r', e1, c1⟩ := corr_add c h2 hres hadd
          exact ⟨r', e1, by rw [one_nsmul]; exact c1⟩
        · rw [if_neg hbit, show n % 2 = 0 from by omega]
          exact ⟨res, rfl, by rw [zero_nsmul, add_zero]; exact hres⟩
      obtain ⟨r', hr', hrc⟩ := hstep
      obtain ⟨a', ha', hac⟩ := corr_double c h2 hadd
      obtain ⟨R, hR, hRc⟩ :=
        ih (n / 2) (Nat.div_lt_self (Nat.pos_of_ne_zero h0) Nat.one_lt_two) hrc hac
      refine ⟨R, ?_, ?_⟩
      · rw [EllipticCurve.scalarLoop]
        simp only [dif_neg h0, hr', ha']
        exact hR
      · have hsm : (R' + (n % 2) • A') + (n / 2) • (A' + A') = R' + n • A' := by
          rw [show A' + A' = 2 • A' from (two_nsmul A').symm, ← mul_nsmul A' 2 (n / 2),
            add_assoc, ← add_nsmul, show n % 2 + 2 * (n / 2) = n from by omega]
        rwa [hsm] at hRc

/-- Scalar multiplication corresponds to `k • P'`. -/
theorem corr_scalar_mult (c : EllipticCurve) [Fact c.p.Prime] (h2 : c.p ≠ 2)
    {P : Point} {P' : (toW c).Point} (h : PtCorr c P P') (k : Nat) :
    ∃ R, c.scalar_mult P k = some R ∧ PtCorr c R (k • P') := by
  unfold EllipticCurve.scalar_mult
  by_cases h0 : k = 0
  · subst h0
    rw [if_pos rfl]
    refine ⟨.Identity, rfl, ?_⟩
    rw [zero_nsmul]
    exact PtCorr.identity
  · rw [if_neg h0]
    by_cases h1 : k = 1
    · subst h1
      rw [if_pos rfl]
      exact ⟨P, rfl, by rw [one_nsmul]; exact h⟩
    · rw [if_neg h1]
      obtain ⟨R, hR, hc⟩ := corr_scalarLoop c h2 k PtCorr.identity h
      exact ⟨R, hR, by rw [zero_add] at hc; exact hc⟩

theorem PtCorr_id_inv (c : EllipticCurve) {R' : (toW c).Point}
    (h : PtCorr c .Identity R') : R' = 0 := by
  cases h
  rfl

/-- Inverting the correspondence at a coordinate point. -/
theorem PtCorr_coord_inv (c : EllipticCurve) {x y : Nat} {R' : (toW c).Point}
    (h : PtCorr c (.Coordinate x y) R') :
    x < c.p ∧ y < c.p ∧
      ∃ hns : (toW c).Nonsingular (x : ZMod c.p) (y : ZMod c.p), R' = .some hns := by
  cases h with
  | coord x y hx hy hns => exact ⟨hx, hy, hns, rfl⟩

/-- The correspondence is injective in the embedded point. -/
theorem PtCorr_inj (c : EllipticCurve) {P Q : Point} {R' : (toW c).Point}
    (hP : PtCorr c P R') (hQ : PtCorr c Q R') : P = Q := by
  cases hP with
  | identity =>
    cases Q with
    | Identity => rfl
    | Coordinate x2 y2 =>
      obtain ⟨-, -, hns, heq⟩ := PtCorr_coord_inv c hQ
      exact absurd heq.symm (WeierstrassCurve.Affine.Point.some_ne_zero hns)
  | coord x y hx hy h =>
    cases Q with
    | Identity =>
      exact absurd (PtCorr_id_inv c hQ) (WeierstrassCurve.Affine.Point.some_ne_zero h)
    | Coordinate x2 y2 =>
      obtain ⟨hx2, hy2, hns, heq⟩ := PtCorr_coord_inv c hQ
      injection heq with e1 e2
      rw [natCast_inj_of_lt hx hx2 e1, natCast_inj_of_lt hy hy2 e2]

/-- In a monoid whose element `g` satisfies `n • g = 0`, scalars congruent
mod `n` act identically. -/
theorem nsmul_mod_congr {M : Type} [AddCommMonoid M] {g : M} {n : Nat}
    (hg : n • g = 0) (a b : Nat) (hab : a % n = b % n) : a • g = b • g := by
  have key : ∀ m : Nat, m • g = (m % n) • g := by
    intro m
    conv_lhs => rw [← Nat.mod_add_div m n]
    rw [add_nsmul, mul_nsmul g n (m / n), hg, smul_zero, add_zero]
  rw [key a, key b, hab]

/-- Build the correspondence for an on-curve reduced point. -/
theorem mk_corr (c : EllipticCurve) (hp : c.p.Prime) (h2 : c.p ≠ 2)
    (hd : (4 * c.a ^ 3 + 27 * c.b ^ 2) % c.p ≠ 0) {P : Point}
    (hon : c.is_on_curve P = true) (hred : reducedPt c P = true) :
    ∃ P', PtCorr c P P' := by
  cases P with
  | Identity => exact ⟨0, PtCorr.identity⟩
  | Coordinate x y =>
    obtain ⟨hx, hy⟩ := reduced_coord c hred
    exact ⟨.some (toW_nonsingular_of c hp h2 hd ((is_on_curve_iff c x y).mp hon)),
      PtCorr.coord x y hx hy _⟩

/-- Decomposition of a successful signing attempt. -/
theorem signAttempt_success_inv (E : ECDSA) {z d k r s : Nat}
    (h : E.signAttempt z d k = .success r s) :
    ∃ xR yR, E.curve.scalar_mult E.generator k = some (.Coordinate xR yR) ∧
      r = xR % E.order ∧ r ≠ 0 ∧
      ∃ k_inv, (FiniteField.mk E.order).div 1 k = some k_inv ∧
        s = (FiniteField.mk E.order).mul k_inv
              ((FiniteField.mk E.order).add z ((FiniteField.mk E.order).mul r d)) ∧
        s ≠ 0 := by
  simp only [ECDSA.signAttempt] at h
  split at h
  · cases h
  · cases h
  · rename_i xR yR hsm
    split at h
    · cases h
    · rename_i hr
      split at h
      · cases h
      · rename_i k_inv hdiv
        split at h
        · cases h
        · rename_i hs
          cases h
          exact ⟨xR, yR, hsm, rfl, hr, k_inv, hdiv, rfl, hs⟩

/-- C1: ECDSA round trip.  For a context whose curve has odd prime modulus
and non-zero discriminant, whose order is prime, and whose on-curve reduced
generator has that order, any signature produced by a signing attempt (for
any message hash, private key `d` and nonce `k` in `[1, n-1]`) verifies
against the public key `Q = d·G`. -/
theorem ecdsa_sign_verify_round_trip (E : ECDSA)
    (hp : E.curve.p.Prime) (hp2 : E.curve.p ≠ 2) (hn : E.order.Prime)
    (hdisc : (4 * E.curve.a ^ 3 + 27 * E.curve.b ^ 2) % E.curve.p ≠ 0)
    (hGon : E.curve.is_on_curve E.generator = true)
    (hGred : reducedPt E.curve E.generator = true)
    (hord : E.curve.scalar_mult E.generator E.order = some .Identity)
    (d k digest : Nat) (hd1 : 1 ≤ d) (hdn : d < E.order)
    (hk1 : 1 ≤ k) (hkn : k < E.order)
    (Q : Point) (hQ : E.curve.scalar_mult E.generator d = some Q)
    (r s : Nat) (hsig : E.signAttempt (E.hash_message digest) d k = .success r s) :
    E.verify digest r s Q = some true := by
  haveI : Fact E.curve.p.Prime := ⟨hp⟩
  haveI : Fact E.order.Prime := ⟨hn⟩
  have hn2 : 2 ≤ E.order := hn.two_le
  obtain ⟨xR, yR, hsm, hr_def, hr0, k_inv, hdivk, hs_def, hs0⟩ :=
    signAttempt_success_inv E hsig
  have hrlt : r < E.order := by
    rw [hr_def]
    exact Nat.mod_lt _ (by omega)
  have hslt : s < E.order := by
    rw [hs_def]
    exact ffmul_lt (FiniteField.mk E.order) hn.pos _ _
  obtain ⟨G', hG'⟩ := mk_corr E.curve hp hp2 hdisc hGon hGred
  obtain ⟨Rk, hRk, hRkc⟩ := corr_scalar_mult E.curve hp2 hG' k
  rw [hsm] at hRk
  have hRk_eq : Point.Coordinate xR yR = Rk := Option.some.inj hRk
  rw [← hRk_eq] at hRkc
  obtain ⟨Rd, hRd, hRdc⟩ := corr_scalar_mult E.curve hp2 hG' d
  rw [hQ] at hRd
  have hRd_eq : Q = Rd := Option.some.inj hRd
  rw [← hRd_eq] at hRdc
  obtain ⟨Rn, hRn, hRnc⟩ := corr_scalar_mult E.curve hp2 hG' E.order
  rw [hord] at hRn
  have hRn_eq : Point.Identity = Rn := Option.some.inj hRn
  rw [← hRn_eq] at hRnc
  have hordG : E.order • G' = 0 := PtCorr_id_inv E.curve hRnc
  -- range guard passes
  have hguard : ¬(r = 0 ∨ E.order ≤ r ∨ s = 0 ∨ E.order ≤ s) := by
    push_neg
    exact ⟨hr0, by omega, hs0, by omega⟩
  -- the division by s succeeds with the inverse
  have hsc0 : (s : ZMod E.order) ≠ 0 := natCast_ne_zero_of_lt hs0 hslt
  obtain ⟨w, hw, hwlt, hwc⟩ := ffdiv_spec (FiniteField.mk E.order) hn 1 s hsc0
  -- correspondence for the two scalar multiplications in verify
  obtain ⟨U1, hU1, hU1c⟩ := corr_scalar_mult E.curve hp2 hG'
    ((FiniteField.mk E.order).mul (E.hash_message digest) w)
  obtain ⟨U2, hU2, hU2c⟩ := corr_scalar_mult E.curve hp2 hRdc
    ((FiniteField.mk E.order).mul r w)
  obtain ⟨Pv, hPv, hPvc⟩ := corr_add E.curve hp2 hU1c hU2c
  -- the scalar computation mod n
  have hkc0 : (k : ZMod E.order) ≠ 0 := natCast_ne_zero_of_lt (by omega) hkn
  have hkinvc : (k_inv : ZMod E.order) = (k : ZMod E.order)⁻¹ := by
    obtain ⟨v, hv, hvlt, hvc⟩ := ffdiv_spec (FiniteField.mk E.order) hn 1 k hkc0
    rw [hdivk] at hv
    rw [Option.some.inj hv, hvc]
    simp
  have hsc : (s : ZMod E.order) = (k : ZMod E.order)⁻¹ *
      ((E.hash_message digest : ZMod E.order) + (r : ZMod E.order) * d) := by
    rw [hs_def, ffmul_cast, ffadd_cast, ffmul_cast, hkinvc]
  have hwc' : (w : ZMod E.order) = ((s : ZMod E.order))⁻¹ := by
    rw [hwc]
    simp
  have hA : ((E.hash_message digest : ZMod E.order) + (r : ZMod E.order) * d) ≠ 0 := by
    intro h0
    apply hsc0
    rw [hsc, h0, mul_zero]
  have hcong : ((FiniteField.mk E.order).mul (E.hash_message digest) w
        + d * (FiniteField.mk E.order).mul r w) % E.order = k % E.order := by
    apply (ZMod.natCast_eq_natCast_iff' _ _ _).mp
    push_cast
    rw [ffmul_cast, ffmul_cast, hwc', hsc, mul_inv, inv_inv]
    have expand : (E.hash_message digest : ZMod E.order) *
          (((k : ZMod E.order)⁻¹)⁻¹ * ((E.hash_message digest : ZMod E.order)
            + (r : ZMod E.order) * d)⁻¹)
        + (d : ZMod E.order) * ((r : ZMod E.order) *
          (((k : ZMod E.order)⁻¹)⁻¹ * ((E.hash_message digest : ZMod E.order)
            + (r : ZMod E.order) * d)⁻¹))
        = ((E.hash_message digest : ZMod E.order) + (r : ZMod E.order) * d)
          * ((E.hash_message digest : ZMod E.order) + (r : ZMod E.order) * d)⁻¹
          * (k : ZMod E.order) := by
      rw [inv_inv]
      ring
    rw [inv_inv] at expand
    rw [expand, mul_inv_cancel₀ hA, one_mul]
  have hsmul : ((FiniteField.mk E.order).mul (E.hash_message digest) w) • G'
      + ((FiniteField.mk E.order).mul r w) • (d • G') = k • G' := by
    rw [← mul_nsmul G' d ((FiniteField.mk E.order).mul r w), ← add_nsmul]
    exact nsmul_mod_congr hordG _ _ hcong
  rw [hsmul] at hPvc
  have hPv_eq : Pv = .Coordinate xR yR := PtCorr_inj E.curve hPvc hRkc
  rw [hPv_eq] at hPv
  -- run verify
  simp only [ECDSA.verify]
  rw [if_neg hguard, hw]
  show E.verifyWith (E.hash_message digest) r s Q w = some true
  simp only [ECDSA.verifyWith]
  rw [hU1, hU2]
  show (match E.curve.add U1 U2 with
    | some (.Coordinate x _) => some (decide (x % E.order = r))
    | some .Identity => some false
    | none => none) = some true
  rw [hPv]
  simp [hr_def]

/-- Witness for C1 on the demo context: private key `2`, nonce `3`,
message hash `5`; the attempt signs as `(r, s) = (10, 2)` and `verify`
accepts it against `Q = 2·G = (6, 3)`. -/
theorem ecdsa_sign_verify_round_trip_witness :
    (Nat.Prime demoECDSA.curve.p ∧ demoECDSA.curve.p ≠ 2 ∧
      Nat.Prime demoECDSA.order ∧
      (4 * demoECDSA.curve.a ^ 3 + 27 * demoECDSA.curve.b ^ 2) % demoECDSA.curve.p ≠ 0 ∧
      demoECDSA.curve.is_on_curve demoECDSA.generator = true ∧
      reducedPt demoECDSA.curve demoECDSA.generator = true ∧
      demoECDSA.curve.scalar_mult demoECDSA.generator demoECDSA.order = some .Identity ∧
      1 ≤ 2 ∧ 2 < demoECDSA.order ∧ 1 ≤ 3 ∧ 3 < demoECDSA.order ∧
      demoECDSA.curve.scalar_mult demoECDSA.generator 2 = some (.Coordinate 6 3) ∧
      demoECDSA.signAttempt (demoECDSA.hash_message 5) 2 3 = .success 10 2) ∧
    demoECDSA.verify 5 10 2 (.Coordinate 6 3) = some true := by
  have hord : demoECDSA.curve.scalar_mult demoECDSA.generator demoECDSA.order
      = some .Identity := by
    simp [demoECDSA, EllipticCurve.scalar_mult, EllipticCurve.scalarLoop,
      EllipticCurve.add, EllipticCurve.double, FiniteField.add, FiniteField.sub,
      FiniteField.mul, FiniteField.div, EllipticCurve.field]
  have hQ : demoECDSA.curve.scalar_mult demoECDSA.generator 2
      = some (.Coordinate 6 3) := by
    simp [demoECDSA, EllipticCurve.scalar_mult, EllipticCurve.scalarLoop,
      EllipticCurve.add, EllipticCurve.double, FiniteField.add, FiniteField.sub,
      FiniteField.mul, FiniteField.div, EllipticCurve.field]
  have hsig : demoECDSA.signAttempt (demoECDSA.hash_message 5) 2 3
      = .success 10 2 := by
    simp [ECDSA.signAttempt, ECDSA.hash_message, demoECDSA, EllipticCurve.scalar_mult,
      EllipticCurve.scalarLoop, EllipticCurve.add, EllipticCurve.double,
      FiniteField.add, FiniteField.sub, FiniteField.mul, FiniteField.div,
      EllipticCurve.field]
  refine ⟨⟨by decide, by decide, by decide, by decide, by decide, by decide, hord,
    by decide, by decide, by decide, by decide, hQ, hsig⟩, ?_⟩
  exact ecdsa_sign_verify_round_trip demoECDSA (by decide) (by decide) (by decide)
    (by decide) (by decide) (by decide) hord 2 3 5 (by decide) (by decide)
    (by decide) (by decide) (.Coordinate 6 3) hQ 10 2 hsig

end ECC
